import Mathlib

/-!
Verification development for mcabber_merge_history (mcabber_merge_history.c).

The C program is shallowly embedded: byte streams become `List Char`
(the embedding is faithful for NUL-free text, the only kind the record
format carries), C strings become `List Char`, the NULL-terminated
`char **lines` array becomes `List (List Char)`, and every loop becomes
structural recursion (bounded, where needed, by an explicit fuel argument
that provably suffices).  Allocation failures (`malloc`/`realloc`
returning NULL) are not modelled: the embedding corresponds to the run in
which every allocation succeeds.
-/

/-- C strcmp on NUL-free byte strings, modelled on lists of characters:
lexicographic comparison in which a proper prefix is smaller (the
terminating NUL byte is smaller than any other byte). -/
def strcmp : List Char → List Char → Ordering
  | [], [] => Ordering.eq
  | [], _ :: _ => Ordering.lt
  | _ :: _, [] => Ordering.gt
  | a :: as, b :: bs =>
    if a < b then Ordering.lt
    else if b < a then Ordering.gt
    else strcmp as bs

/-- Mcabber history entry (`struct hist_entry` of the source): message
type tag, timestamp, count-of-following-lines field (kept as the raw
3-character string, exactly as the C struct keeps it), and the raw lines
belonging to the message, each kept verbatim including its newline. -/
structure HistEntry where
  type : List Char
  timestamp : List Char
  follow_lines : List Char
  lines : List (List Char)
deriving DecidableEq

/-- `cmp_hist_entry_timestamp` of the source: compare two entries by
strcmp on their timestamp strings. -/
def cmp_hist_entry_timestamp (a b : HistEntry) : Ordering :=
  strcmp a.timestamp b.timestamp

/-- The timestamp order induced by the comparator: `a` sorts no later
than `b` (the comparator does not return gt). -/
def tsLe (a b : HistEntry) : Prop :=
  strcmp a.timestamp b.timestamp ≠ Ordering.gt

instance : DecidableRel tsLe := fun a b =>
  inferInstanceAs (Decidable (strcmp a.timestamp b.timestamp ≠ Ordering.gt))

/-- The line-comparison loop of `eq_hist_entry`:
`for (a_it, b_it; *a_it || *b_it; ++a_it, ++b_it) if (strcmp(*a_it, *b_it)) return 0;`
`none` marks the undefined behaviour of the C loop: when exactly one of
the two NULL-terminated arrays is exhausted, the loop condition still
holds and strcmp dereferences a NULL pointer. -/
def eqLines : List (List Char) → List (List Char) → Option Bool
  | [], [] => some true
  | [], _ :: _ => none
  | _ :: _, [] => none
  | a :: as, b :: bs =>
    if strcmp a b ≠ Ordering.eq then some false else eqLines as bs

/-- `eq_hist_entry` of the source: full comparison of two entries — the
three header strings first, then every line.  Result `some true` / `some
false` is the C result 1 / 0; `none` is the NULL-dereference undefined
behaviour of the line loop (see `eqLines`). -/
def eq_hist_entry (a b : HistEntry) : Option Bool :=
  if strcmp a.type b.type ≠ Ordering.eq ∨
     strcmp a.timestamp b.timestamp ≠ Ordering.eq ∨
     strcmp a.follow_lines b.follow_lines ≠ Ordering.eq
  then some false
  else eqLines a.lines b.lines

/-- `write_entry` of the source: the bytes written for one entry — type,
space, timestamp, space, follow_lines, space, then every stored line
verbatim (fputs of NUL-free strings writes them whole). -/
def write_entry (e : HistEntry) : List Char :=
  e.type ++ (' ' :: (e.timestamp ++ (' ' :: (e.follow_lines ++ (' ' :: e.lines.flatten)))))

/-- C `fgets(buf, n+1, fh)`: read up to `n` characters from the stream,
stopping after a newline; at end of stream nothing is read (the zeroed
buffer then has strlen 0).  Returns the characters read and the rest of
the stream. -/
def fgetsAux : Nat → List Char → List Char × List Char
  | 0, s => ([], s)
  | _ + 1, [] => ([], [])
  | n + 1, c :: s =>
    if c = '\n' then ([c], s)
    else
      let p := fgetsAux n s
      (c :: p.1, p.2)

/-- C `getline`: read one full line including its terminating newline; at
end of input with no newline the partial tail is returned; at end of
input with nothing left it fails (returns -1, here `none`). -/
def getlineGo : List Char → Option (List Char × List Char)
  | [] => none
  | c :: s =>
    if c = '\n' then some ([c], s)
    else
      match getlineGo s with
      | none => some ([c], [])
      | some p => some (c :: p.1, p.2)

/-- The `for (i = 0; i <= follow_lines; ++i) getline(...)` loop of
`read_entry`: read exactly `n` lines, failing if any getline fails. -/
def readLines : Nat → List Char → Option (List (List Char) × List Char)
  | 0, s => some ([], s)
  | n + 1, s =>
    match getlineGo s with
    | none => none
    | some (l, rest) =>
      match readLines n rest with
      | none => none
      | some (ls, rest') => some (l :: ls, rest')

/-- The whitespace class skipped by C `atoi`. -/
def isSpaceChar (c : Char) : Bool :=
  decide (c = ' ' ∨ c = '\t' ∨ c = '\n' ∨ c = '\x0b' ∨ c = '\x0c' ∨ c = '\r')

/-- Decimal digit accumulator of `atoi`: consume leading digits. -/
def digitsVal : Nat → List Char → Nat
  | acc, [] => acc
  | acc, c :: cs => if c.isDigit then digitsVal (10 * acc + (c.toNat - 48)) cs else acc

/-- Sign handling of `atoi`, applied after whitespace skipping. -/
def atoiSigned (s : List Char) : Int :=
  match s with
  | [] => 0
  | c :: r =>
    if c = '-' then -(digitsVal 0 r : Int)
    else if c = '+' then (digitsVal 0 r : Int)
    else (digitsVal 0 (c :: r) : Int)

/-- C `atoi`: skip whitespace, optional sign, then leading digits. -/
def atoiI (s : List Char) : Int :=
  atoiSigned (s.dropWhile isSpaceChar)

/-- Number of lines `read_entry` reads for a follow_lines field: the loop
`for (i = 0; i <= follow_lines; ++i)` runs `atoi(follow_lines) + 1`
times (and zero times when atoi is negative). -/
def linesOf (fl : List Char) : Nat :=
  (atoiI fl + 1).toNat

/-- `read_entry` of the source: read the 2-character type (fewer than 2
characters means clean end-of-stream or malformed start — return NULL),
a separator byte, the timestamp (up to 18 characters), a separator, the
follow_lines field (up to 3 characters), a separator, then exactly
`atoi(follow_lines) + 1` full lines; a missing line aborts the record
(NULL), returning no partial entry.  Returns the entry and the remaining
stream. -/
def read_entry (s : List Char) : Option (HistEntry × List Char) :=
  let p1 := fgetsAux 2 s
  if p1.1.length ≠ 2 then none
  else
    let s2 := p1.2.drop 1
    let p2 := fgetsAux 18 s2
    let s4 := p2.2.drop 1
    let p3 := fgetsAux 3 s4
    let s6 := p3.2.drop 1
    match readLines (linesOf p3.1) s6 with
    | none => none
    | some (ls, rest) => some (⟨p1.1, p2.1, p3.1, ls⟩, rest)

/-- The `while (entry = read_entry(hist_fh))` loop of `read_hist`:
collect entries in stream order until `read_entry` returns NULL (for any
reason).  Fuel-bounded; `read_entry` consumes at least two characters on
success, so fuel `s.length + 1` always suffices. -/
def read_histGo : Nat → List Char → List HistEntry
  | 0, _ => []
  | f + 1, s =>
    match read_entry s with
    | none => []
    | some (e, r) => e :: read_histGo f r

/-- All entries `read_hist` collects from a stream, in stream order. -/
def readAll (s : List Char) : List HistEntry :=
  read_histGo (s.length + 1) s

/-- One sweep of the inner `for (i = 0; i < n-1; ++i)` loop of
`bubble_sort`, with `c` comparisons left, `pos` the current index and
`m` the `new_n` accumulator (last swap index + 1, initially 1).  Returns
the updated list and the final `new_n`. -/
def passGo (cmp : α → α → Ordering) : Nat → Nat → Nat → List α → List α × Nat
  | 0, _, m, l => (l, m)
  | _ + 1, _, m, [] => ([], m)
  | _ + 1, _, m, [x] => ([x], m)
  | c + 1, pos, m, x :: y :: rest =>
    if cmp x y = Ordering.gt then
      let p := passGo cmp c (pos + 1) (pos + 1) (x :: rest)
      (y :: p.1, p.2)
    else
      let p := passGo cmp c (pos + 1) m (y :: rest)
      (x :: p.1, p.2)

/-- The outer do-while loop of `bubble_sort`: run one pass over the
first `n` elements, shrink `n` to the returned `new_n`, and repeat while
`n > 1`.  Fuel-bounded; each iteration strictly shrinks `n`, so fuel
`initial n + 1` always suffices. -/
def bubbleGo (cmp : α → α → Ordering) : Nat → Nat → List α → List α
  | 0, _, l => l
  | f + 1, n, l =>
    let p := passGo cmp (n - 1) 0 1 l
    if p.2 > 1 then bubbleGo cmp f p.2 p.1 else p.1

/-- `bubble_sort` of the source, as called on a whole array. -/
def bubble_sort (cmp : α → α → Ordering) (l : List α) : List α :=
  bubbleGo cmp (l.length + 1) l.length l

/-- `read_hist` of the source: loop `read_entry` until NULL, then
bubble-sort by timestamp.  The C function returns NULL exactly when the
entry array is still NULL, i.e. when no entry at all was collected
(allocation failure aside); that is the only error it can signal. -/
def read_hist (s : List Char) : Option (List HistEntry) :=
  let es := readAll s
  if es = [] then none
  else some (bubble_sort cmp_hist_entry_timestamp es)

/-- The two-pointer loop of `merge_entries`, fuel-bounded (each step
emits one entry and consumes at least one input entry, so fuel
`|a| + |b|` always suffices; exhausted fuel dumps both remainders, which
never happens with adequate fuel).  On `ts_cmp <= 0` the a-entry is
written and a advanced, with b additionally skipped first when the two
entries are exact duplicates; on `ts_cmp > 0` the b-entry is written. -/
def mergeGo : Nat → List HistEntry → List HistEntry → List HistEntry
  | 0, as, bs => as ++ bs
  | _ + 1, [], bs => bs
  | _ + 1, a :: as, [] => a :: as
  | f + 1, a :: as, b :: bs =>
    if strcmp a.timestamp b.timestamp = Ordering.gt then
      b :: mergeGo f (a :: as) bs
    else if strcmp a.timestamp b.timestamp = Ordering.eq ∧ eq_hist_entry a b = some true then
      a :: mergeGo f as bs
    else
      a :: mergeGo f as (b :: bs)

/-- `merge_entries` of the source: the emission order of the two-way
merge of two entry lists. -/
def merge_entries (as bs : List HistEntry) : List HistEntry :=
  mergeGo (as.length + bs.length) as bs

/-- The bytes `merge_entries` writes to its output stream. -/
def writeEntries (es : List HistEntry) : List Char :=
  (es.map write_entry).flatten

/-- `merge_files` of the source, on file contents: load both histories
(either load yielding NULL fails the merge), then write the merged
entries.  The output file is only opened after both loads succeed. -/
def merge_files (c1 c2 : List Char) : Option (List Char) :=
  match read_hist c1, read_hist c2 with
  | some h1, some h2 => some (writeEntries (merge_entries h1 h2))
  | _, _ => none

/-- One directory entry as readdir reports it: name, whether it is a
directory, and (for a regular file) its content. -/
structure DirEnt where
  name : List Char
  isDir : Bool
  content : List Char
deriving DecidableEq

/-- The skip conditions of both `merge_dirs` loops: directories and the
dot entries are ignored. -/
def skipEnt (e : DirEnt) : Bool :=
  e.isDir || decide (e.name = ".".data) || decide (e.name = "..".data)

/-- C `access(dir/name, F_OK)` on a modelled directory listing. -/
def hasEntry (d : List DirEnt) (nm : List Char) : Bool :=
  d.any fun e => decide (e.name = nm)

/-- Content of the named file in a modelled directory listing. -/
def findFile (d : List DirEnt) (nm : List Char) : Option (List Char) :=
  (d.find? fun e => decide (e.name = nm)).map DirEnt.content

/-- Pass 1 of `merge_dirs`: iterate the entries of dir1; a name also
present in dir2 is merged, a name only in dir1 is copied.  The
accumulator carries the files written to the output directory (in
order) and the running status. -/
def mergeDirsPass1 (d1 d2 : List DirEnt) : List (List Char × List Char) × Bool :=
  d1.foldl
    (fun acc e =>
      if skipEnt e then acc
      else if hasEntry d2 e.name then
        match merge_files e.content ((findFile d2 e.name).getD []) with
        | some o => (acc.1 ++ [(e.name, o)], acc.2)
        | none => (acc.1, false)
      else (acc.1 ++ [(e.name, e.content)], acc.2))
    ([], true)

/-- Pass 2 of `merge_dirs`: iterate the entries of dir1 AGAIN (the
source reopens dir1, not dir2), copying dir2's file whenever
`access(dir1/name, F_OK)` fails. -/
def mergeDirsPass2 (d1 d2 : List DirEnt) (st : List (List Char × List Char) × Bool) :
    List (List Char × List Char) × Bool :=
  d1.foldl
    (fun acc e =>
      if skipEnt e then acc
      else if hasEntry d1 e.name then acc
      else
        match findFile d2 e.name with
        | some c => (acc.1 ++ [(e.name, c)], acc.2)
        | none => (acc.1, false))
    st

/-- `merge_dirs` of the source: pass 1 then pass 2, with the status
accumulated across both. -/
def merge_dirs (d1 d2 : List DirEnt) : List (List Char × List Char) × Bool :=
  mergeDirsPass2 d1 d2 (mergeDirsPass1 d1 d2)

/-- Lines `read_hist`'s loop can still pull from a stream: how many
getline calls succeed before end of input.  Fuel-bounded like the
functions above. -/
def numLinesGo : Nat → List Char → Nat
  | 0, _ => 0
  | f + 1, s =>
    match getlineGo s with
    | none => 0
    | some (_, rest) => numLinesGo f rest + 1

/-- Number of lines available in a stream before end of input. -/
def numLines (s : List Char) : Nat :=
  numLinesGo (s.length + 1) s

/-- A record text conforming to the fixed record format of the spec:
2-character kind, space, 18-character timestamp, space, 3-digit count,
space, then `count + 1` newline-terminated lines (`bodies` are the lines
without their terminating newline).  NUL and newline bytes are excluded
from the fields, matching what the C string functions require. -/
structure RawRecord where
  kind : List Char
  ts : List Char
  cnt : List Char
  bodies : List (List Char)

/-- The byte encoding of a conforming record. -/
def encodeRecord (r : RawRecord) : List Char :=
  r.kind ++ (' ' :: (r.ts ++ (' ' ::
    (r.cnt ++ (' ' :: (r.bodies.map (fun b => b ++ ['\n'])).flatten)))))

/-- Well-formedness of a `RawRecord` under the fixed record format. -/
def WFRaw (r : RawRecord) : Prop :=
  r.kind.length = 2 ∧ (∀ c ∈ r.kind, c ≠ '\n' ∧ c ≠ '\x00') ∧
  r.ts.length = 18 ∧ (∀ c ∈ r.ts, c ≠ '\n' ∧ c ≠ '\x00') ∧
  r.cnt.length = 3 ∧ (∀ c ∈ r.cnt, c.isDigit = true) ∧
  r.bodies.length = digitsVal 0 r.cnt + 1 ∧
  (∀ b ∈ r.bodies, ∀ c ∈ b, c ≠ '\n' ∧ c ≠ '\x00')

/-- The entry `read_entry` builds from a conforming record. -/
def rawToEntry (r : RawRecord) : HistEntry :=
  ⟨r.kind, r.ts, r.cnt, r.bodies.map (fun b => b ++ ['\n'])⟩

/-- A well-formed in-memory entry, as `read_entry` always produces it:
the lines list holds exactly the `atoi(follow_lines) + 1` lines the
parser read (the C array additionally carries its NULL terminator). -/
def WFEntry (e : HistEntry) : Prop :=
  e.lines.length = linesOf e.follow_lines

instance (r : RawRecord) : Decidable (WFRaw r) := by
  unfold WFRaw; infer_instance

instance (e : HistEntry) : Decidable (WFEntry e) := by
  unfold WFEntry; infer_instance

/-- Concrete timestamp (18 characters, as mcabber writes them). -/
def tsA : List Char := "20100901T13:39:14Z".data

/-- A later concrete timestamp. -/
def tsB : List Char := "20100901T13:39:15Z".data

/-- A concrete single-line entry, the parse of `goodStream`. -/
def entA : HistEntry := ⟨"MR".data, tsA, "000".data, ["hello\n".data]⟩

/-- A concrete entry with a later timestamp than `entA`. -/
def entB : HistEntry := ⟨"MS".data, tsB, "000".data, ["world\n".data]⟩

/-- A concrete entry with the same timestamp as `entA` but another body. -/
def entC : HistEntry := ⟨"MR".data, tsA, "000".data, ["other\n".data]⟩

/-- A complete well-formed one-record log. -/
def goodStream : List Char := "MR 20100901T13:39:14Z 000 hello\n".data

/-- A truncated record: the header declares 002 continuation lines but
only one body line follows before end of input. -/
def truncStream : List Char := "MR 20100901T13:39:14Z 002 only\n".data

/-- A log whose first record is well-formed and whose second record is
truncated: a record-level parse failure strictly before end-of-stream. -/
def cexStream : List Char := goodStream ++ truncStream

/-- A concrete conforming two-line record. -/
def rawSample : RawRecord :=
  ⟨"MR".data, tsA, "001".data, ["hello".data, "world".data]⟩

/-- Concrete one-record log contents for the directory scenario. -/
def logA : List Char := "MR 20100901T13:39:14Z 000 file-a\n".data

/-- Concrete content of dirA's copy of shared.log. -/
def logS1 : List Char := "MR 20100901T13:39:14Z 000 shared-one\n".data

/-- Concrete content of dirB's copy of shared.log. -/
def logS2 : List Char := "MS 20100901T13:39:15Z 000 shared-two\n".data

/-- Concrete content of dirB's b.log. -/
def logB : List Char := "MR 20100901T13:39:16Z 000 file-b\n".data

/-- The first directory of the spec's directory scenario. -/
def dirA : List DirEnt :=
  [⟨"a.log".data, false, logA⟩, ⟨"shared.log".data, false, logS1⟩]

/-- The second directory of the spec's directory scenario. -/
def dirB : List DirEnt :=
  [⟨"shared.log".data, false, logS2⟩, ⟨"b.log".data, false, logB⟩]

/-! ## Order-theoretic facts about strcmp -/

theorem strcmp_self (a : List Char) : strcmp a a = Ordering.eq := by
  induction a with
  | nil => rfl
  | cons c cs ih => simp [strcmp, ih]

theorem strcmp_eq_iff (a b : List Char) : strcmp a b = Ordering.eq ↔ a = b := by
  induction a generalizing b with
  | nil => cases b <;> simp [strcmp]
  | cons x xs ih =>
    cases b with
    | nil => simp [strcmp]
    | cons y ys =>
      by_cases hxy : x < y
      · simp [strcmp, hxy, ne_of_lt hxy]
      · by_cases hyx : y < x
        · simp [strcmp, hxy, hyx, (ne_of_lt hyx).symm]
        · have hx : x = y := le_antisymm (not_lt.mp hyx) (not_lt.mp hxy)
          subst hx
          simp [strcmp, ih]

theorem strcmp_gt_asymm (a b : List Char) (h : strcmp a b = Ordering.gt) :
    strcmp b a ≠ Ordering.gt := by
  induction a generalizing b with
  | nil => cases b <;> simp [strcmp] at h
  | cons x xs ih =>
    cases b with
    | nil => simp [strcmp]
    | cons y ys =>
      by_cases hxy : x < y
      · simp [strcmp, hxy] at h
      · by_cases hyx : y < x
        · simp [strcmp, hyx, asymm hyx]
        · have hx : x = y := le_antisymm (not_lt.mp hyx) (not_lt.mp hxy)
          subst hx
          simp [strcmp, hxy] at h ⊢
          exact ih ys h

theorem strcmp_cons_ne_gt_iff (x y : Char) (xs ys : List Char) :
    strcmp (x :: xs) (y :: ys) ≠ Ordering.gt ↔
      x < y ∨ (x = y ∧ strcmp xs ys ≠ Ordering.gt) := by
  by_cases hxy : x < y
  · simp [strcmp, hxy]
  · by_cases hyx : y < x
    · simp [strcmp, hxy, hyx, ne_of_gt hyx]
    · have hx : x = y := le_antisymm (not_lt.mp hyx) (not_lt.mp hxy)
      subst hx
      simp [strcmp, hxy]

theorem strcmp_le_trans (a b c : List Char)
    (hab : strcmp a b ≠ Ordering.gt) (hbc : strcmp b c ≠ Ordering.gt) :
    strcmp a c ≠ Ordering.gt := by
  induction a generalizing b c with
  | nil => cases c <;> simp [strcmp]
  | cons x xs ih =>
    cases b with
    | nil => simp [strcmp] at hab
    | cons y ys =>
      cases c with
      | nil => simp [strcmp] at hbc
      | cons z zs =>
        rw [strcmp_cons_ne_gt_iff] at hab hbc ⊢
        rcases hab with h1 | ⟨h1, h1'⟩
        · rcases hbc with h2 | ⟨h2, _⟩
          · exact Or.inl (lt_trans h1 h2)
          · exact Or.inl (h2 ▸ h1)
        · rcases hbc with h2 | ⟨h2, h2'⟩
          · exact Or.inl (h1 ▸ h2)
          · exact Or.inr ⟨h1.trans h2, ih ys zs h1' h2'⟩

theorem tsCmp_refl (e : HistEntry) : cmp_hist_entry_timestamp e e ≠ Ordering.gt := by
  simp [cmp_hist_entry_timestamp, strcmp_self]

theorem tsCmp_asymm (a b : HistEntry) (h : cmp_hist_entry_timestamp a b = Ordering.gt) :
    cmp_hist_entry_timestamp b a ≠ Ordering.gt :=
  strcmp_gt_asymm _ _ h

theorem tsCmp_trans (a b c : HistEntry)
    (hab : cmp_hist_entry_timestamp a b ≠ Ordering.gt)
    (hbc : cmp_hist_entry_timestamp b c ≠ Ordering.gt) :
    cmp_hist_entry_timestamp a c ≠ Ordering.gt :=
  strcmp_le_trans _ _ _ hab hbc

/-! ## Facts about the exact-duplicate test -/

theorem eqLines_self (l : List (List Char)) : eqLines l l = some true := by
  induction l with
  | nil => rfl
  | cons x xs ih => simp [eqLines, strcmp_self, ih]

theorem eq_hist_entry_self (e : HistEntry) : eq_hist_entry e e = some true := by
  simp [eq_hist_entry, strcmp_self, eqLines_self]

theorem eqLines_eq_of_true (l1 l2 : List (List Char)) (h : eqLines l1 l2 = some true) :
    l1 = l2 := by
  induction l1 generalizing l2 with
  | nil => cases l2 with
    | nil => rfl
    | cons y ys => simp [eqLines] at h
  | cons x xs ih =>
    cases l2 with
    | nil => simp [eqLines] at h
    | cons y ys =>
      by_cases hxy : strcmp x y = Ordering.eq
      · have hx : x = y := (strcmp_eq_iff x y).mp hxy
        simp [eqLines, hxy] at h
        exact hx ▸ congrArg (x :: ·) (ih ys h)
      · simp [eqLines, hxy] at h

theorem eq_hist_entry_eq_of_true (a b : HistEntry) (h : eq_hist_entry a b = some true) :
    a = b := by
  unfold eq_hist_entry at h
  split at h
  · simp at h
  · rename_i hcond
    push_neg at hcond
    obtain ⟨h1, h2, h3⟩ := hcond
    cases a; cases b
    simp_all only [HistEntry.mk.injEq]
    refine ⟨(strcmp_eq_iff _ _).mp h1, (strcmp_eq_iff _ _).mp h2,
      (strcmp_eq_iff _ _).mp h3, eqLines_eq_of_true _ _ h⟩

theorem eqLines_isSome_of_length (l1 l2 : List (List Char)) (h : l1.length = l2.length) :
    (eqLines l1 l2).isSome := by
  induction l1 generalizing l2 with
  | nil =>
    cases l2 with
    | nil => rfl
    | cons y ys => simp at h
  | cons x xs ih =>
    cases l2 with
    | nil => simp at h
    | cons y ys =>
      simp only [List.length_cons, Nat.add_right_cancel_iff] at h
      by_cases hxy : strcmp x y ≠ Ordering.eq
      · simp [eqLines, hxy]
      · simp only [eqLines, hxy, if_false]
        exact ih ys h

/-! ## Facts about the two-way merge -/

theorem mergeGo_self (f : Nat) (as : List HistEntry)
    (hf : as.length + as.length ≤ f) : mergeGo f as as = as := by
  induction f generalizing as with
  | zero =>
    have : as = [] := by
      cases as with
      | nil => rfl
      | cons a t => simp at hf
    subst this; rfl
  | succ f ih =>
    cases as with
    | nil => rfl
    | cons a t =>
      have h1 : strcmp a.timestamp a.timestamp = Ordering.eq := strcmp_self _
      have h2 : eq_hist_entry a a = some true := eq_hist_entry_self a
      simp only [mergeGo, h1, h2, and_self, if_true]
      have : ¬ (Ordering.eq = Ordering.gt) := by decide
      rw [if_neg (by simp [h1])]
      simp only [List.cons.injEq, true_and]
      exact ih t (by simp at hf ⊢; omega)

theorem mergeGo_mem (f : Nat) (as bs : List HistEntry) (x : HistEntry)
    (hx : x ∈ mergeGo f as bs) : x ∈ as ∨ x ∈ bs := by
  induction f generalizing as bs with
  | zero => simpa [mergeGo] using hx
  | succ f ih =>
    cases as with
    | nil => exact Or.inr hx
    | cons a as' =>
      cases bs with
      | nil => exact Or.inl hx
      | cons b bs' =>
        by_cases hgt : strcmp a.timestamp b.timestamp = Ordering.gt
        · simp only [mergeGo, hgt, if_true, List.mem_cons] at hx
          rcases hx with rfl | hx
          · exact Or.inr (List.mem_cons_self _ _)
          · rcases ih _ _ hx with h | h
            · exact Or.inl h
            · exact Or.inr (List.mem_cons_of_mem _ h)
        · by_cases hdup : strcmp a.timestamp b.timestamp = Ordering.eq ∧
              eq_hist_entry a b = some true
          · simp only [mergeGo] at hx
            rw [if_neg hgt, if_pos hdup, List.mem_cons] at hx
            rcases hx with rfl | hx
            · exact Or.inl (List.mem_cons_self _ _)
            · rcases ih _ _ hx with h | h
              · exact Or.inl (List.mem_cons_of_mem _ h)
              · exact Or.inr (List.mem_cons_of_mem _ h)
          · simp only [mergeGo] at hx
            rw [if_neg hgt, if_neg hdup, List.mem_cons] at hx
            rcases hx with rfl | hx
            · exact Or.inl (List.mem_cons_self _ _)
            · rcases ih _ _ hx with h | h
              · exact Or.inl (List.mem_cons_of_mem _ h)
              · exact Or.inr h

theorem mergeGo_length (f : Nat) (as bs : List HistEntry)
    (hf : as.length + bs.length ≤ f)
    (hnd : ∀ a ∈ as, ∀ b ∈ bs, eq_hist_entry a b ≠ some true) :
    (mergeGo f as bs).length = as.length + bs.length := by
  induction f generalizing as bs with
  | zero => simp [mergeGo]
  | succ f ih =>
    cases as with
    | nil => simp [mergeGo]
    | cons a as' =>
      cases bs with
      | nil => simp [mergeGo]
      | cons b bs' =>
        by_cases hgt : strcmp a.timestamp b.timestamp = Ordering.gt
        · simp only [mergeGo, hgt, if_true, List.length_cons]
          rw [ih (a :: as') bs' (by simp at hf ⊢; omega)
            (fun x hx y hy => hnd x hx y (List.mem_cons_of_mem _ hy))]
          simp; omega
        · have hne : ¬ (strcmp a.timestamp b.timestamp = Ordering.eq ∧
              eq_hist_entry a b = some true) := by
            rintro ⟨_, habs⟩
            exact hnd a (List.mem_cons_self _ _) b (List.mem_cons_self _ _) habs
          simp only [mergeGo, hgt, if_false, hne, List.length_cons]
          rw [ih as' (b :: bs') (by simp at hf ⊢; omega)
            (fun x hx y hy => hnd x (List.mem_cons_of_mem _ hx) y hy)]
          simp; omega

theorem mergeGo_sorted (f : Nat) (as bs : List HistEntry)
    (hf : as.length + bs.length ≤ f)
    (hA : List.Pairwise tsLe as) (hB : List.Pairwise tsLe bs) :
    List.Pairwise tsLe (mergeGo f as bs) := by
  induction f generalizing as bs with
  | zero =>
    have h1 : as = [] := by cases as with
      | nil => rfl
      | cons a t => simp at hf
    have h2 : bs = [] := by cases bs with
      | nil => rfl
      | cons b t => subst h1; simp at hf
    subst h1; subst h2
    simp [mergeGo]
  | succ f ih =>
    cases as with
    | nil => exact hB
    | cons a as' =>
      cases bs with
      | nil => exact hA
      | cons b bs' =>
        rw [List.pairwise_cons] at hA hB
        by_cases hgt : strcmp a.timestamp b.timestamp = Ordering.gt
        · simp only [mergeGo, hgt, if_true]
          rw [List.pairwise_cons]
          constructor
          · intro z hz
            have hba : tsLe b a := strcmp_gt_asymm _ _ hgt
            rcases mergeGo_mem _ _ _ _ hz with h | h
            · rcases List.mem_cons.mp h with rfl | h
              · exact hba
              · exact strcmp_le_trans _ _ _ hba (hA.1 z h)
            · exact hB.1 z h
          · exact ih (a :: as') bs' (by simp at hf ⊢; omega)
              (List.pairwise_cons.mpr hA) hB.2
        · have hab : tsLe a b := hgt
          by_cases hdup : strcmp a.timestamp b.timestamp = Ordering.eq ∧
              eq_hist_entry a b = some true
          · simp only [mergeGo]
            rw [if_neg hgt, if_pos hdup, List.pairwise_cons]
            constructor
            · intro z hz
              rcases mergeGo_mem _ _ _ _ hz with h | h
              · exact hA.1 z h
              · exact strcmp_le_trans _ _ _ hab (hB.1 z h)
            · exact ih as' bs' (by simp at hf ⊢; omega) hA.2 hB.2
          · simp only [mergeGo]
            rw [if_neg hgt, if_neg hdup, List.pairwise_cons]
            constructor
            · intro z hz
              rcases mergeGo_mem _ _ _ _ hz with h | h
              · exact hA.1 z h
              · rcases List.mem_cons.mp h with rfl | h
                · exact hab
                · exact strcmp_le_trans _ _ _ hab (hB.1 z h)
            · exact ih as' (b :: bs') (by simp at hf ⊢; omega) hA.2
                (List.pairwise_cons.mpr hB)

theorem mergeGo_sublist_left (f : Nat) (as bs : List HistEntry) :
    as.Sublist (mergeGo f as bs) := by
  induction f generalizing as bs with
  | zero => exact List.sublist_append_left as bs
  | succ f ih =>
    cases as with
    | nil => exact List.nil_sublist _
    | cons a as' =>
      cases bs with
      | nil => exact List.Sublist.refl _
      | cons b bs' =>
        by_cases hgt : strcmp a.timestamp b.timestamp = Ordering.gt
        · simp only [mergeGo, hgt, if_true]
          exact List.Sublist.cons b (ih (a :: as') bs')
        · by_cases hdup : strcmp a.timestamp b.timestamp = Ordering.eq ∧
              eq_hist_entry a b = some true
          · simp only [mergeGo, hgt, if_false, hdup, if_true]
            exact List.Sublist.cons₂ a (ih as' bs')
          · simp only [mergeGo, hgt, if_false, hdup]
            exact List.Sublist.cons₂ a (ih as' (b :: bs'))

theorem mergeGo_sublist_right (f : Nat) (as bs : List HistEntry)
    (hnd : ∀ a ∈ as, ∀ b ∈ bs, eq_hist_entry a b ≠ some true) :
    bs.Sublist (mergeGo f as bs) := by
  induction f generalizing as bs with
  | zero => exact List.sublist_append_right as bs
  | succ f ih =>
    cases as with
    | nil => exact List.Sublist.refl _
    | cons a as' =>
      cases bs with
      | nil => exact List.nil_sublist _
      | cons b bs' =>
        by_cases hgt : strcmp a.timestamp b.timestamp = Ordering.gt
        · simp only [mergeGo, hgt, if_true]
          exact List.Sublist.cons₂ b (ih (a :: as') bs'
            (fun x hx y hy => hnd x hx y (List.mem_cons_of_mem _ hy)))
        · have hne : ¬ (strcmp a.timestamp b.timestamp = Ordering.eq ∧
              eq_hist_entry a b = some true) := by
            rintro ⟨_, habs⟩
            exact hnd a (List.mem_cons_self _ _) b (List.mem_cons_self _ _) habs
          simp only [mergeGo, hgt, if_false, hne]
          exact List.Sublist.cons a (ih as' (b :: bs')
            (fun x hx y hy => hnd x (List.mem_cons_of_mem _ hx) y hy))

theorem mergeGo_absorb (f : Nat) (as bs : List HistEntry)
    (hf : as.length + bs.length ≤ f)
    (hA : List.Pairwise tsLe as) (hsub : bs.Sublist as) :
    mergeGo f as bs = as := by
  induction f generalizing as bs with
  | zero =>
    have h1 : as = [] := by cases as with
      | nil => rfl
      | cons a t => simp at hf
    subst h1
    have h2 : bs = [] := List.sublist_nil.mp hsub
    subst h2; rfl
  | succ f ih =>
    cases bs with
    | nil => cases as <;> rfl
    | cons b bs' =>
      cases as with
      | nil => exact absurd hsub (by simp)
      | cons a as' =>
        rw [List.pairwise_cons] at hA
        rcases List.sublist_cons_iff.mp hsub with htl | ⟨r, heq, htl⟩
        · have hmem : b ∈ as' := htl.subset (List.mem_cons_self _ _)
          have hab : tsLe a b := hA.1 b hmem
          simp only [mergeGo]
          rw [if_neg hab]
          by_cases hdup : strcmp a.timestamp b.timestamp = Ordering.eq ∧
              eq_hist_entry a b = some true
          · rw [if_pos hdup]
            simp only [List.cons.injEq, true_and]
            have hbs' : bs'.Sublist as' := (List.sublist_cons_self b bs').trans htl
            exact ih as' bs' (by simp at hf ⊢; omega) hA.2 hbs'
          · rw [if_neg hdup]
            simp only [List.cons.injEq, true_and]
            exact ih as' (b :: bs') (by simp at hf ⊢; omega) hA.2 htl
        · obtain ⟨rfl, rfl⟩ : b = a ∧ bs' = r := by
            simpa [List.cons.injEq] using heq
          have h1 : strcmp b.timestamp b.timestamp = Ordering.eq := strcmp_self _
          have h2 : eq_hist_entry b b = some true := eq_hist_entry_self b
          simp only [mergeGo]
          rw [if_neg (by simp [h1]), if_pos ⟨h1, h2⟩]
          simp only [List.cons.injEq, true_and]
          exact ih as' bs' (by simp at hf ⊢; omega) hA.2 htl

/-! ## Correctness of the bubble sort -/

theorem pairwise_of_head {α : Type} (R : α → α → Prop) (l : List α)
    (h1 : List.Pairwise R (l.drop 1))
    (h2 : ∀ x ∈ l.take 1, ∀ y ∈ l.drop 1, R x y) : List.Pairwise R l := by
  cases l with
  | nil => exact List.Pairwise.nil
  | cons x xs =>
    rw [List.pairwise_cons]
    exact ⟨fun y hy => h2 x (by simp) y (by simpa using hy), by simpa using h1⟩

theorem passGo_spec {α : Type} (cmp : α → α → Ordering)
    (hrefl : ∀ x, cmp x x ≠ Ordering.gt)
    (htot : ∀ x y, cmp x y = Ordering.gt → cmp y x ≠ Ordering.gt)
    (htrans : ∀ x y z, cmp x y ≠ Ordering.gt → cmp y z ≠ Ordering.gt →
      cmp x z ≠ Ordering.gt) :
    ∀ (c pos m₀ : Nat) (l : List α), m₀ ≤ pos + 1 →
      List.Pairwise (fun x y => cmp x y ≠ Ordering.gt) (l.drop (c + 1)) →
      (∀ x ∈ l.take (c + 1), ∀ y ∈ l.drop (c + 1), cmp x y ≠ Ordering.gt) →
      m₀ ≤ (passGo cmp c pos m₀ l).2 ∧
      (passGo cmp c pos m₀ l).2 ≤ max m₀ (pos + c) ∧
      List.Pairwise (fun x y => cmp x y ≠ Ordering.gt)
        ((passGo cmp c pos m₀ l).1.drop ((passGo cmp c pos m₀ l).2 - pos)) ∧
      (∀ w ∈ (passGo cmp c pos m₀ l).1.take ((passGo cmp c pos m₀ l).2 - pos),
        ∀ y ∈ (passGo cmp c pos m₀ l).1.drop ((passGo cmp c pos m₀ l).2 - pos),
          cmp w y ≠ Ordering.gt) ∧
      (∀ x₀, l.head? = some x₀ →
        ∀ y ∈ (passGo cmp c pos m₀ l).1.drop ((passGo cmp c pos m₀ l).2 - pos),
          cmp x₀ y ≠ Ordering.gt) := by
  intro c
  induction c with
  | zero =>
    intro pos m₀ l hm h1 h2
    have hd : m₀ - pos = 0 ∨ m₀ - pos = 1 := by omega
    refine ⟨le_refl _, le_max_left _ _, ?_, ?_, ?_⟩
    · show List.Pairwise _ (l.drop (m₀ - pos))
      rcases hd with h | h <;> rw [h]
      · exact pairwise_of_head _ l h1 h2
      · exact h1
    · show ∀ w ∈ l.take (m₀ - pos), ∀ y ∈ l.drop (m₀ - pos), _
      rcases hd with h | h <;> rw [h]
      · intro w hw; simp at hw
      · exact h2
    · show ∀ x₀, l.head? = some x₀ → ∀ y ∈ l.drop (m₀ - pos), _
      intro x₀ hx₀ y hy
      cases l with
      | nil => simp at hx₀
      | cons z zs =>
        have hz : x₀ = z := by simpa using hx₀.symm
        rw [hz]
        rcases hd with h | h <;> rw [h] at hy
        · rcases List.mem_cons.mp hy with rfl | hy'
          · exact hrefl _
          · exact h2 z (by simp) y (by simpa using hy')
        · exact h2 z (by simp) y (by simpa using hy)
  | succ c ih =>
    intro pos m₀ l hm h1 h2
    cases l with
    | nil =>
      simp only [passGo]
      refine ⟨le_refl _, le_max_left _ _, by simp, by simp, ?_⟩
      intro x₀ hx₀; simp at hx₀
    | cons x l' =>
      cases l' with
      | nil =>
        simp only [passGo]
        have hd : m₀ - pos = 0 ∨ 1 ≤ m₀ - pos := by omega
        refine ⟨le_refl _, le_max_left _ _, ?_, ?_, ?_⟩
        · rcases hd with h | h
          · rw [h]; exact List.pairwise_singleton _ _
          · have : [x].drop (m₀ - pos) = [] := by
              apply List.drop_eq_nil_of_le; simpa using h
            rw [this]; exact List.Pairwise.nil
        · intro w hw y hy
          rcases hd with h | h
          · rw [h] at hw; simp at hw
          · have : [x].drop (m₀ - pos) = [] := by
              apply List.drop_eq_nil_of_le; simpa using h
            rw [this] at hy; simp at hy
        · intro x₀ hx₀ y hy
          have hx : x₀ = x := by simpa using hx₀.symm
          rw [hx]
          rcases hd with h | h
          · rw [h] at hy
            rcases List.mem_cons.mp hy with rfl | hy'
            · exact hrefl _
            · simp at hy'
          · have he : [x].drop (m₀ - pos) = [] := by
              apply List.drop_eq_nil_of_le; simpa using h
            rw [he] at hy; simp at hy
      | cons y rest =>
        by_cases hc : cmp x y = Ordering.gt
        · have hunf : passGo cmp (c + 1) pos m₀ (x :: y :: rest) =
              (y :: (passGo cmp c (pos + 1) (pos + 1) (x :: rest)).1,
                (passGo cmp c (pos + 1) (pos + 1) (x :: rest)).2) := by
            simp only [passGo]; rw [if_pos hc]
          have hH1 : List.Pairwise (fun a b => cmp a b ≠ Ordering.gt)
              ((x :: rest).drop (c + 1)) := by
            simpa using h1
          have hH2 : ∀ a ∈ (x :: rest).take (c + 1),
              ∀ b ∈ (x :: rest).drop (c + 1), cmp a b ≠ Ordering.gt := by
            intro a ha b hb
            rcases List.mem_cons.mp (by simpa using ha) with rfl | ha'
            · exact h2 a (by simp) b (by simpa using hb)
            · exact h2 a (by simp [List.mem_cons_of_mem, ha']) b (by simpa using hb)
          obtain ⟨ih1, ih2, ih3, ih4, ih5⟩ :=
            ih (pos + 1) (pos + 1) (x :: rest) (by omega) hH1 hH2
          rw [hunf]
          set p := passGo cmp c (pos + 1) (pos + 1) (x :: rest) with hp
          have hppos : pos + 1 ≤ p.2 := ih1
          have hdrop : (y :: p.1).drop (p.2 - pos) = p.1.drop (p.2 - (pos + 1)) := by
            have : p.2 - pos = (p.2 - (pos + 1)) + 1 := by omega
            rw [this, List.drop_succ_cons]
          have htake : (y :: p.1).take (p.2 - pos) = y :: p.1.take (p.2 - (pos + 1)) := by
            have : p.2 - pos = (p.2 - (pos + 1)) + 1 := by omega
            rw [this, List.take_succ_cons]
          refine ⟨by omega, ?_, ?_, ?_, ?_⟩
          · show p.2 ≤ max m₀ (pos + (c + 1))
            have h1' : p.2 ≤ max (pos + 1) (pos + 1 + c) := ih2
            have h2' : max (pos + 1) (pos + 1 + c) = pos + (c + 1) := by
              rw [max_eq_right (by omega : pos + 1 ≤ pos + 1 + c)]; omega
            rw [h2'] at h1'
            exact le_trans h1' (le_max_right _ _)
          · simpa [hdrop] using ih3
          · intro w hw z hz
            rw [htake] at hw
            rw [hdrop] at hz
            rcases List.mem_cons.mp hw with rfl | hw'
            · have hxz : cmp x z ≠ Ordering.gt := ih5 x (by simp) z hz
              exact htrans w x z (htot x w hc) hxz
            · exact ih4 w hw' z hz
          · intro x₀ hx₀ z hz
            have hx : x₀ = x := by simpa using hx₀.symm
            rw [hx]
            rw [hdrop] at hz
            exact ih5 x (by simp) z hz
        · have hunf : passGo cmp (c + 1) pos m₀ (x :: y :: rest) =
              (x :: (passGo cmp c (pos + 1) m₀ (y :: rest)).1,
                (passGo cmp c (pos + 1) m₀ (y :: rest)).2) := by
            simp only [passGo]; rw [if_neg hc]
          have hH1 : List.Pairwise (fun a b => cmp a b ≠ Ordering.gt)
              ((y :: rest).drop (c + 1)) := by
            simpa using h1
          have hH2 : ∀ a ∈ (y :: rest).take (c + 1),
              ∀ b ∈ (y :: rest).drop (c + 1), cmp a b ≠ Ordering.gt := by
            intro a ha b hb
            exact h2 a (by simpa using Or.inr (by simpa using ha)) b (by simpa using hb)
          obtain ⟨ih1, ih2, ih3, ih4, ih5⟩ :=
            ih (pos + 1) m₀ (y :: rest) (by omega) hH1 hH2
          rw [hunf]
          set p := passGo cmp c (pos + 1) m₀ (y :: rest) with hp
          have hyz : ∀ z ∈ p.1.drop (p.2 - (pos + 1)), cmp y z ≠ Ordering.gt :=
            fun z hz => ih5 y (by simp) z hz
          have hxz : ∀ z ∈ p.1.drop (p.2 - (pos + 1)), cmp x z ≠ Ordering.gt :=
            fun z hz => htrans x y z hc (hyz z hz)
          refine ⟨ih1, ?_, ?_, ?_, ?_⟩
          · simp only [Prod.snd]
            have h' : pos + 1 + c = pos + (c + 1) := by omega
            rw [h'] at ih2
            exact ih2
          · rcases Nat.eq_zero_or_pos (p.2 - pos) with h0 | h0
            · rw [h0, List.drop_zero]
              have h0' : p.2 - (pos + 1) = 0 := by omega
              rw [h0', List.drop_zero] at ih3 hxz
              rw [List.pairwise_cons]
              exact ⟨hxz, ih3⟩
            · have hdrop : (x :: p.1).drop (p.2 - pos) = p.1.drop (p.2 - (pos + 1)) := by
                have : p.2 - pos = (p.2 - (pos + 1)) + 1 := by omega
                rw [this, List.drop_succ_cons]
              rw [hdrop]; exact ih3
          · intro w hw z hz
            rcases Nat.eq_zero_or_pos (p.2 - pos) with h0 | h0
            · rw [h0] at hw; simp at hw
            · have hdrop : (x :: p.1).drop (p.2 - pos) = p.1.drop (p.2 - (pos + 1)) := by
                have : p.2 - pos = (p.2 - (pos + 1)) + 1 := by omega
                rw [this, List.drop_succ_cons]
              have htake : (x :: p.1).take (p.2 - pos) = x :: p.1.take (p.2 - (pos + 1)) := by
                have : p.2 - pos = (p.2 - (pos + 1)) + 1 := by omega
                rw [this, List.take_succ_cons]
              rw [htake] at hw
              rw [hdrop] at hz
              rcases List.mem_cons.mp hw with rfl | hw'
              · exact hxz z hz
              · exact ih4 w hw' z hz
          · intro x₀ hx₀ z hz
            have hx : x₀ = x := by simpa using hx₀.symm
            rw [hx]
            rcases Nat.eq_zero_or_pos (p.2 - pos) with h0 | h0
            · rw [h0, List.drop_zero] at hz
              rcases List.mem_cons.mp hz with rfl | hz'
              · exact hrefl _
              · have h0' : p.2 - (pos + 1) = 0 := by omega
                rw [h0', List.drop_zero] at hxz
                exact hxz z hz'
            · have hdrop : (x :: p.1).drop (p.2 - pos) = p.1.drop (p.2 - (pos + 1)) := by
                have hq : p.2 - pos = (p.2 - (pos + 1)) + 1 := by omega
                rw [hq, List.drop_succ_cons]
              rw [hdrop] at hz
              exact hxz z hz

theorem bubbleGo_sorted {α : Type} (cmp : α → α → Ordering)
    (hrefl : ∀ x, cmp x x ≠ Ordering.gt)
    (htot : ∀ x y, cmp x y = Ordering.gt → cmp y x ≠ Ordering.gt)
    (htrans : ∀ x y z, cmp x y ≠ Ordering.gt → cmp y z ≠ Ordering.gt →
      cmp x z ≠ Ordering.gt) :
    ∀ (f n : Nat) (l : List α), n < f →
      List.Pairwise (fun x y => cmp x y ≠ Ordering.gt) (l.drop n) →
      (∀ x ∈ l.take n, ∀ y ∈ l.drop n, cmp x y ≠ Ordering.gt) →
      List.Pairwise (fun x y => cmp x y ≠ Ordering.gt) (bubbleGo cmp f n l) := by
  intro f
  induction f with
  | zero => intro n l h; exact absurd h (Nat.not_lt_zero n)
  | succ f ih =>
    intro n l hf h1 h2
    cases n with
    | zero =>
      have hid : bubbleGo cmp (f + 1) 0 l = l := by
        simp [bubbleGo, passGo]
      rw [hid]
      simpa using h1
    | succ k =>
      obtain ⟨s1, s2, s3, s4, s5⟩ :=
        passGo_spec cmp hrefl htot htrans k 0 1 l (by omega) h1 h2
      simp only [bubbleGo, Nat.add_sub_cancel]
      set p := passGo cmp k 0 1 l with hp
      by_cases hgt : p.2 > 1
      · rw [if_pos hgt]
        have hlt : p.2 < f := by
          have hmax : p.2 ≤ max 1 (0 + k) := s2
          have : max 1 (0 + k) ≤ max 1 k := by omega
          omega
        apply ih p.2 p.1 hlt
        · simpa using s3
        · simpa using s4
      · rw [if_neg hgt]
        have hone : p.2 = 1 := by omega
        apply pairwise_of_head _ p.1
        · have := s3; rw [hone] at this; simpa using this
        · have := s4; rw [hone] at this; simpa using this

theorem passGo_fst_filter {α : Type} (cmp : α → α → Ordering) (P : α → Bool)
    (hP : ∀ x y, cmp x y = Ordering.gt → ¬(P x = true ∧ P y = true)) :
    ∀ (c pos m₀ : Nat) (l : List α),
      ((passGo cmp c pos m₀ l).1).filter P = l.filter P := by
  intro c
  induction c with
  | zero => intro pos m₀ l; rfl
  | succ c ih =>
    intro pos m₀ l
    cases l with
    | nil => rfl
    | cons x l' =>
      cases l' with
      | nil => rfl
      | cons y rest =>
        by_cases hc : cmp x y = Ordering.gt
        · have hunf : (passGo cmp (c + 1) pos m₀ (x :: y :: rest)).1 =
              y :: (passGo cmp c (pos + 1) (pos + 1) (x :: rest)).1 := by
            simp only [passGo]; rw [if_pos hc]
          have ihq := ih (pos + 1) (pos + 1) (x :: rest)
          have hxy := hP x y hc
          rw [hunf]
          by_cases hx : P x = true <;> by_cases hy : P y = true
          · exact absurd ⟨hx, hy⟩ hxy
          · simp only [List.filter_cons, hx, hy, if_true, if_false] at ihq ⊢
            simp only [Bool.false_eq_true, if_false]
            exact ihq
          · simp only [List.filter_cons, hx, hy, if_true, if_false] at ihq ⊢
            simp only [Bool.false_eq_true, if_false] at ihq ⊢
            rw [ihq]
          · simp only [List.filter_cons, hx, hy] at ihq ⊢
            simp only [Bool.false_eq_true, if_false] at ihq ⊢
            exact ihq
        · have hunf : (passGo cmp (c + 1) pos m₀ (x :: y :: rest)).1 =
              x :: (passGo cmp c (pos + 1) m₀ (y :: rest)).1 := by
            simp only [passGo]; rw [if_neg hc]
          have ihq := ih (pos + 1) m₀ (y :: rest)
          rw [hunf]
          by_cases hx : P x = true <;>
            simp only [List.filter_cons, hx, if_true, ihq, Bool.false_eq_true, if_false]

theorem passGo_fst_perm {α : Type} (cmp : α → α → Ordering) :
    ∀ (c pos m₀ : Nat) (l : List α), ((passGo cmp c pos m₀ l).1).Perm l := by
  intro c
  induction c with
  | zero => intro pos m₀ l; exact List.Perm.refl _
  | succ c ih =>
    intro pos m₀ l
    cases l with
    | nil => exact List.Perm.refl _
    | cons x l' =>
      cases l' with
      | nil => exact List.Perm.refl _
      | cons y rest =>
        by_cases hc : cmp x y = Ordering.gt
        · have hunf : (passGo cmp (c + 1) pos m₀ (x :: y :: rest)).1 =
              y :: (passGo cmp c (pos + 1) (pos + 1) (x :: rest)).1 := by
            simp only [passGo]; rw [if_pos hc]
          rw [hunf]
          exact ((ih (pos + 1) (pos + 1) (x :: rest)).cons y).trans
            (List.Perm.swap x y rest)
        · have hunf : (passGo cmp (c + 1) pos m₀ (x :: y :: rest)).1 =
              x :: (passGo cmp c (pos + 1) m₀ (y :: rest)).1 := by
            simp only [passGo]; rw [if_neg hc]
          rw [hunf]
          exact (ih (pos + 1) m₀ (y :: rest)).cons x

theorem bubbleGo_filter {α : Type} (cmp : α → α → Ordering) (P : α → Bool)
    (hP : ∀ x y, cmp x y = Ordering.gt → ¬(P x = true ∧ P y = true)) :
    ∀ (f n : Nat) (l : List α), (bubbleGo cmp f n l).filter P = l.filter P := by
  intro f
  induction f with
  | zero => intro n l; rfl
  | succ f ih =>
    intro n l
    simp only [bubbleGo]
    set p := passGo cmp (n - 1) 0 1 l with hp
    by_cases hgt : p.2 > 1
    · rw [if_pos hgt]
      rw [ih p.2 p.1, hp]
      exact passGo_fst_filter cmp P hP (n - 1) 0 1 l
    · rw [if_neg hgt, hp]
      exact passGo_fst_filter cmp P hP (n - 1) 0 1 l

theorem bubbleGo_perm {α : Type} (cmp : α → α → Ordering) :
    ∀ (f n : Nat) (l : List α), (bubbleGo cmp f n l).Perm l := by
  intro f
  induction f with
  | zero => intro n l; exact List.Perm.refl _
  | succ f ih =>
    intro n l
    simp only [bubbleGo]
    set p := passGo cmp (n - 1) 0 1 l with hp
    by_cases hgt : p.2 > 1
    · rw [if_pos hgt]
      exact (ih p.2 p.1).trans (by rw [hp]; exact passGo_fst_perm cmp (n - 1) 0 1 l)
    · rw [if_neg hgt, hp]
      exact passGo_fst_perm cmp (n - 1) 0 1 l

theorem bubble_sort_sorted {α : Type} (cmp : α → α → Ordering)
    (hrefl : ∀ x, cmp x x ≠ Ordering.gt)
    (htot : ∀ x y, cmp x y = Ordering.gt → cmp y x ≠ Ordering.gt)
    (htrans : ∀ x y z, cmp x y ≠ Ordering.gt → cmp y z ≠ Ordering.gt →
      cmp x z ≠ Ordering.gt) (l : List α) :
    List.Pairwise (fun x y => cmp x y ≠ Ordering.gt) (bubble_sort cmp l) := by
  apply bubbleGo_sorted cmp hrefl htot htrans (l.length + 1) l.length l (by omega)
  · rw [List.drop_length]; exact List.Pairwise.nil
  · intro x hx y hy
    rw [List.drop_length] at hy
    exact absurd hy (List.not_mem_nil y)

theorem bubble_sort_filter {α : Type} (cmp : α → α → Ordering) (P : α → Bool)
    (hP : ∀ x y, cmp x y = Ordering.gt → ¬(P x = true ∧ P y = true)) (l : List α) :
    (bubble_sort cmp l).filter P = l.filter P :=
  bubbleGo_filter cmp P hP (l.length + 1) l.length l

theorem bubble_sort_perm {α : Type} (cmp : α → α → Ordering) (l : List α) :
    (bubble_sort cmp l).Perm l :=
  bubbleGo_perm cmp (l.length + 1) l.length l

/-! ## Facts about the record parser -/

theorem fgetsAux_append (n : Nat) (s : List Char) :
    (fgetsAux n s).1 ++ (fgetsAux n s).2 = s := by
  induction n generalizing s with
  | zero => rfl
  | succ n ih =>
    cases s with
    | nil => rfl
    | cons c s' =>
      by_cases hc : c = '\n'
      · simp [fgetsAux, hc]
      · simp [fgetsAux, hc, ih]

theorem fgetsAux_exact (pre rest : List Char) (hnl : ∀ c ∈ pre, c ≠ '\n') :
    fgetsAux pre.length (pre ++ rest) = (pre, rest) := by
  induction pre with
  | nil => rfl
  | cons c pre' ih =>
    have hc : c ≠ '\n' := hnl c (List.mem_cons_self _ _)
    simp only [List.length_cons, List.cons_append, fgetsAux, hc, if_false,
      List.append_eq]
    rw [ih (fun x hx => hnl x (List.mem_cons_of_mem _ hx))]

theorem getlineGo_none (s : List Char) (h : getlineGo s = none) : s = [] := by
  cases s with
  | nil => rfl
  | cons c s' =>
    by_cases hc : c = '\n'
    · simp [getlineGo, hc] at h
    · simp only [getlineGo, hc, if_false] at h
      cases hg : getlineGo s' <;> simp [hg] at h

theorem getlineGo_spec (body rest : List Char) (h : '\n' ∉ body) :
    getlineGo (body ++ '\n' :: rest) = some (body ++ ['\n'], rest) := by
  induction body with
  | nil => simp [getlineGo]
  | cons c b ih =>
    have hc : c ≠ '\n' := fun hh => h (hh ▸ List.mem_cons_self _ _)
    have h' : '\n' ∉ b := fun hh => h (List.mem_cons_of_mem _ hh)
    simp only [List.cons_append, getlineGo, hc, if_false, List.append_eq]
    rw [ih h']

theorem getlineGo_append (s l rest : List Char) (h : getlineGo s = some (l, rest)) :
    l ++ rest = s ∧ l ≠ [] := by
  induction s generalizing l rest with
  | nil => simp [getlineGo] at h
  | cons c s' ih =>
    by_cases hc : c = '\n'
    · subst hc
      simp only [getlineGo, if_pos rfl, Option.some.injEq, Prod.mk.injEq] at h
      obtain ⟨rfl, rfl⟩ := h
      exact ⟨rfl, by simp⟩
    · simp only [getlineGo, hc, if_false] at h
      cases hg : getlineGo s' with
      | none =>
        rw [hg] at h
        simp only [Option.some.injEq, Prod.mk.injEq] at h
        obtain ⟨rfl, rfl⟩ := h
        have : s' = [] := getlineGo_none s' hg
        subst this
        exact ⟨by simp, by simp⟩
      | some p =>
        rw [hg] at h
        simp only [Option.some.injEq, Prod.mk.injEq] at h
        obtain ⟨rfl, rfl⟩ := h
        obtain ⟨hap, _⟩ := ih p.1 p.2 (by rw [hg])
        exact ⟨by rw [List.cons_append, hap], by simp⟩

theorem getlineGo_shrink (s l rest : List Char) (h : getlineGo s = some (l, rest)) :
    rest.length < s.length := by
  obtain ⟨hap, hne⟩ := getlineGo_append s l rest h
  have := congrArg List.length hap
  rw [List.length_append] at this
  have hl : 0 < l.length := List.length_pos.mpr hne
  omega


theorem readLines_shrink (n : Nat) (s : List Char) (ls : List (List Char))
    (rest : List Char) (h : readLines n s = some (ls, rest)) :
    rest.length ≤ s.length := by
  induction n generalizing s ls rest with
  | zero =>
    simp only [readLines, Option.some.injEq, Prod.mk.injEq] at h
    obtain ⟨rfl, rfl⟩ := h
    exact le_refl _
  | succ n ih =>
    simp only [readLines] at h
    split at h
    · exact absurd h (by simp)
    · rename_i l r1 hg
      split at h
      · exact absurd h (by simp)
      · rename_i ls' r2 hr
        simp only [Option.some.injEq, Prod.mk.injEq] at h
        obtain ⟨rfl, rfl⟩ := h
        have h1 := ih r1 ls' r2 hr
        have h2 := getlineGo_shrink s l r1 hg
        omega

theorem readLines_encoded (bs : List (List Char)) (rest : List Char)
    (h : ∀ b ∈ bs, '\n' ∉ b) :
    readLines bs.length ((bs.map (fun b => b ++ ['\n'])).flatten ++ rest) =
      some (bs.map (fun b => b ++ ['\n']), rest) := by
  induction bs with
  | nil => rfl
  | cons b bs' ih =>
    have hb : '\n' ∉ b := h b (List.mem_cons_self _ _)
    have hstream : ((b :: bs').map (fun b => b ++ ['\n'])).flatten ++ rest =
        b ++ '\n' :: ((bs'.map (fun b => b ++ ['\n'])).flatten ++ rest) := by
      simp
    rw [hstream]
    simp only [List.length_cons, readLines]
    rw [getlineGo_spec _ _ hb]
    dsimp only
    rw [ih (fun x hx => h x (List.mem_cons_of_mem _ hx))]
    simp

theorem numLinesGo_fuel (k : Nat) : ∀ (f g : Nat) (s : List Char),
    s.length ≤ k → s.length < f → s.length < g →
    numLinesGo f s = numLinesGo g s := by
  induction k with
  | zero =>
    intro f g s hk hf hg
    have hs : s = [] := List.eq_nil_of_length_eq_zero (by omega)
    subst hs
    cases f with
    | zero => omega
    | succ f =>
      cases g with
      | zero => omega
      | succ g => simp [numLinesGo, getlineGo]
  | succ k ih =>
    intro f g s hk hf hg
    cases f with
    | zero => omega
    | succ f =>
      cases g with
      | zero => omega
      | succ g =>
        simp only [numLinesGo]
        cases hg' : getlineGo s with
        | none => rfl
        | some p =>
          obtain ⟨l, r⟩ := p
          have hsh := getlineGo_shrink s l r hg'
          dsimp only
          rw [ih f g r (by omega) (by omega) (by omega)]

theorem numLines_step (s l r : List Char)
    (h : getlineGo s = some (l, r)) : numLines s = numLines r + 1 := by
  have hsh := getlineGo_shrink s l r h
  unfold numLines
  have hunf : numLinesGo (s.length + 1) s = numLinesGo s.length r + 1 := by
    simp only [numLinesGo, h]
  rw [hunf, numLinesGo_fuel r.length s.length (r.length + 1) r
    (le_refl _) (by omega) (by omega)]

theorem readLines_none_of_numLines_lt (n : Nat) (s : List Char)
    (h : numLines s < n) : readLines n s = none := by
  induction n generalizing s with
  | zero => omega
  | succ n ih =>
    simp only [readLines]
    cases hg : getlineGo s with
    | none => rfl
    | some p =>
      obtain ⟨l, r⟩ := p
      have hstep := numLines_step s l r hg
      dsimp only
      rw [ih r (by omega)]

theorem read_entry_shrink (s : List Char) (e : HistEntry) (r : List Char)
    (h : read_entry s = some (e, r)) : r.length < s.length := by
  simp only [read_entry] at h
  split at h
  · exact absurd h (by simp)
  · rename_i hlen
    push_neg at hlen
    split at h
    · exact absurd h (by simp)
    · rename_i ls rest hrl
      simp only [Option.some.injEq, Prod.mk.injEq] at h
      obtain ⟨he, rfl⟩ := h
      have hA := congrArg List.length (fgetsAux_append 2 s)
      have hB := congrArg List.length (fgetsAux_append 18 ((fgetsAux 2 s).2.drop 1))
      have hC := congrArg List.length (fgetsAux_append 3
        ((fgetsAux 18 ((fgetsAux 2 s).2.drop 1)).2.drop 1))
      rw [List.length_append] at hA hB hC
      have hD := readLines_shrink _ _ _ _ hrl
      simp only [List.length_drop] at hB hC hD
      omega

theorem read_histGo_fuel (k : Nat) : ∀ (f g : Nat) (s : List Char),
    s.length ≤ k → s.length < f → s.length < g →
    read_histGo f s = read_histGo g s := by
  induction k with
  | zero =>
    intro f g s hk hf hg
    have hs : s = [] := List.eq_nil_of_length_eq_zero (by omega)
    subst hs
    cases f with
    | zero => omega
    | succ f =>
      cases g with
      | zero => omega
      | succ g => simp [read_histGo, show read_entry [] = none from rfl]
  | succ k ih =>
    intro f g s hk hf hg
    cases f with
    | zero => omega
    | succ f =>
      cases g with
      | zero => omega
      | succ g =>
        simp only [read_histGo]
        cases hre : read_entry s with
        | none => rfl
        | some p =>
          obtain ⟨e, r⟩ := p
          have hsh := read_entry_shrink s e r hre
          dsimp only
          rw [ih f g r (by omega) (by omega) (by omega)]

theorem readAll_cons (s : List Char) (e : HistEntry) (r : List Char)
    (h : read_entry s = some (e, r)) : readAll s = e :: readAll r := by
  have hsh := read_entry_shrink s e r h
  unfold readAll
  have hunf : read_histGo (s.length + 1) s = e :: read_histGo s.length r := by
    simp only [read_histGo, h]
  rw [hunf, read_histGo_fuel r.length s.length (r.length + 1) r
    (le_refl _) (by omega) (by omega)]

theorem digit_not_space (c : Char) (h : c.isDigit = true) : isSpaceChar c = false := by
  simp only [isSpaceChar, decide_eq_false_iff_not]
  push_neg
  refine ⟨?_, ?_, ?_, ?_, ?_, ?_⟩ <;> rintro rfl <;> exact absurd h (by decide)

theorem digit_not_dash (c : Char) (h : c.isDigit = true) : c ≠ '-' := by
  rintro rfl; exact absurd h (by decide)

theorem digit_not_plus (c : Char) (h : c.isDigit = true) : c ≠ '+' := by
  rintro rfl; exact absurd h (by decide)

theorem digit_not_newline (c : Char) (h : c.isDigit = true) : c ≠ '\n' := by
  rintro rfl; exact absurd h (by decide)

theorem linesOf_digits (s : List Char) (h : ∀ c ∈ s, c.isDigit = true) :
    linesOf s = digitsVal 0 s + 1 := by
  unfold linesOf atoiI
  have hdw : s.dropWhile isSpaceChar = s := by
    cases s with
    | nil => rfl
    | cons c cs =>
      rw [List.dropWhile_cons]
      rw [digit_not_space c (h c (List.mem_cons_self _ _))]
      simp
  rw [hdw]
  cases s with
  | nil => rfl
  | cons c cs =>
    have hd := h c (List.mem_cons_self _ _)
    unfold atoiSigned
    dsimp only
    rw [if_neg (digit_not_dash c hd), if_neg (digit_not_plus c hd)]
    omega

theorem read_entry_encoded (r : RawRecord) (h : WFRaw r) :
    read_entry (encodeRecord r) = some (rawToEntry r, []) := by
  obtain ⟨hk2, hknl, ht18, htnl, hc3, hcd, hbl, hbnl⟩ := h
  have hcnl : ∀ c ∈ r.cnt, c ≠ '\n' := fun c hc => digit_not_newline c (hcd c hc)
  have e1 : fgetsAux 2 (encodeRecord r) =
      (r.kind, ' ' :: (r.ts ++ (' ' ::
        (r.cnt ++ (' ' :: (r.bodies.map (fun b => b ++ ['\n'])).flatten))))) := by
    unfold encodeRecord
    rw [← hk2]
    exact fgetsAux_exact _ _ (fun c hc => (hknl c hc).1)
  simp only [read_entry]
  rw [e1]
  dsimp only
  rw [if_neg (show ¬(r.kind.length ≠ 2) by omega)]
  simp only [List.drop_one, List.tail_cons]
  have e2 : fgetsAux 18 (r.ts ++ (' ' ::
      (r.cnt ++ (' ' :: (r.bodies.map (fun b => b ++ ['\n'])).flatten)))) =
      (r.ts, ' ' :: (r.cnt ++ (' ' :: (r.bodies.map (fun b => b ++ ['\n'])).flatten))) := by
    rw [← ht18]
    exact fgetsAux_exact _ _ (fun c hc => (htnl c hc).1)
  rw [e2]
  dsimp only
  simp only [List.drop_one, List.tail_cons]
  have e3 : fgetsAux 3 (r.cnt ++ (' ' :: (r.bodies.map (fun b => b ++ ['\n'])).flatten)) =
      (r.cnt, ' ' :: (r.bodies.map (fun b => b ++ ['\n'])).flatten) := by
    rw [← hc3]
    exact fgetsAux_exact _ _ hcnl
  rw [e3]
  dsimp only
  simp only [List.drop_one, List.tail_cons]
  rw [linesOf_digits r.cnt hcd, ← hbl]
  have e4 := readLines_encoded r.bodies []
    (fun b hb hmem => (hbnl b hb '\n' hmem).1 rfl)
  rw [List.append_nil] at e4
  rw [e4]
  rfl

/-- Claim C9: for every input whose record header declares
continuation_count 002 but which is followed by fewer than three body
lines before end-of-input, the Record Parser fails (returns NULL) and
returns no record — in particular no partially filled record. -/
theorem c9_truncated_record (kind ts rest : List Char)
    (hk2 : kind.length = 2) (hknl : ∀ c ∈ kind, c ≠ '\n')
    (ht18 : ts.length = 18) (htnl : ∀ c ∈ ts, c ≠ '\n')
    (hr : numLines rest < 3) :
    read_entry (kind ++ (' ' :: (ts ++ (' ' ::
      (('0' :: '0' :: '2' :: []) ++ (' ' :: rest)))))) =
      none := by
  have e1 : fgetsAux 2 (kind ++ (' ' :: (ts ++ (' ' ::
      (('0' :: '0' :: '2' :: []) ++ (' ' :: rest)))))) =
      (kind, ' ' :: (ts ++ (' ' :: (('0' :: '0' :: '2' :: []) ++ (' ' :: rest))))) := by
    rw [← hk2]
    exact fgetsAux_exact _ _ hknl
  simp only [read_entry]
  rw [e1]
  dsimp only
  rw [if_neg (show ¬(kind.length ≠ 2) by omega)]
  simp only [List.drop_one, List.tail_cons]
  have e2 : fgetsAux 18 (ts ++ (' ' :: (('0' :: '0' :: '2' :: []) ++ (' ' :: rest)))) =
      (ts, ' ' :: (('0' :: '0' :: '2' :: []) ++ (' ' :: rest))) := by
    rw [← ht18]
    exact fgetsAux_exact _ _ htnl
  rw [e2]
  dsimp only
  simp only [List.drop_one, List.tail_cons]
  have e3 : fgetsAux 3 (('0' :: '0' :: '2' :: []) ++ (' ' :: rest)) =
      (('0' :: '0' :: '2' :: []), ' ' :: rest) :=
    fgetsAux_exact ('0' :: '0' :: '2' :: []) (' ' :: rest) (by decide)
  rw [e3]
  dsimp only
  simp only [List.drop_one, List.tail_cons]
  rw [show linesOf ('0' :: '0' :: '2' :: []) = 3 from rfl]
  rw [readLines_none_of_numLines_lt 3 rest hr]

/-! ## The claims -/

theorem c9_witness :
    (("MR".data : List Char).length = 2 ∧ (∀ c ∈ "MR".data, c ≠ '\n') ∧
      ("20100901T13:39:14Z".data : List Char).length = 18 ∧
      (∀ c ∈ "20100901T13:39:14Z".data, c ≠ '\n') ∧
      numLines ("only\n".data) < 3) ∧
    read_entry ("MR".data ++ (' ' :: ("20100901T13:39:14Z".data ++ (' ' ::
      (('0' :: '0' :: '2' :: []) ++ (' ' :: "only\n".data)))))) = none :=
  ⟨by decide, c9_truncated_record "MR".data "20100901T13:39:14Z".data "only\n".data
    (by decide) (by decide) (by decide) (by decide) (by decide)⟩

/-- Claim C8: every record text conforming to the fixed record format
(2-character kind, space, 18-character timestamp, space, 3-digit count,
space, count + 1 newline-terminated lines) parses to a record whose
write_entry output reproduces the original input bytes exactly,
including line terminators; the parse consumes the whole text. -/
theorem c8_round_trip (r : RawRecord) (h : WFRaw r) :
    read_entry (encodeRecord r) = some (rawToEntry r, []) ∧
    write_entry (rawToEntry r) = encodeRecord r :=
  ⟨read_entry_encoded r h, rfl⟩

theorem c8_witness :
    WFRaw rawSample ∧
    (read_entry (encodeRecord rawSample) = some (rawToEntry rawSample, []) ∧
      write_entry (rawToEntry rawSample) = encodeRecord rawSample) :=
  ⟨by decide, c8_round_trip rawSample (by decide)⟩

/-- Claim C10: on well-formed entries (whose lines list holds exactly
the declared `atoi(follow_lines) + 1` lines), the exact-duplicate test
reaches a defined result — it never runs into the NULL-dereference case
of its line loop (`eq_hist_entry` is never `none`).  When the
follow_lines fields differ it returns unequal before touching the
lines. -/
theorem c10_eq_entry_safe (a b : HistEntry) (ha : WFEntry a) (hb : WFEntry b) :
    (eq_hist_entry a b).isSome = true ∧
    (strcmp a.follow_lines b.follow_lines ≠ Ordering.eq →
      eq_hist_entry a b = some false) := by
  constructor
  · unfold eq_hist_entry
    split
    · rfl
    · rename_i hcond
      push_neg at hcond
      obtain ⟨h1, h2, h3⟩ := hcond
      have hfl : a.follow_lines = b.follow_lines := (strcmp_eq_iff _ _).mp h3
      have hlen : a.lines.length = b.lines.length := by
        unfold WFEntry at ha hb
        rw [ha, hb, hfl]
      exact eqLines_isSome_of_length _ _ hlen
  · intro hne
    unfold eq_hist_entry
    rw [if_pos (Or.inr (Or.inr hne))]

theorem c10_witness :
    (WFEntry entA ∧ WFEntry entB) ∧
    ((eq_hist_entry entA entB).isSome = true ∧
      (strcmp entA.follow_lines entB.follow_lines ≠ Ordering.eq →
        eq_hist_entry entA entB = some false)) :=
  ⟨by decide, c10_eq_entry_safe entA entB (by decide) (by decide)⟩

/-- Claim C5: merging a sorted record sequence against itself yields
exactly that sequence — every record of the second copy is detected as
a self-duplicate and dropped. -/
theorem c5_merge_idempotent (A : List HistEntry) (hA : List.Pairwise tsLe A) :
    merge_entries A A = A :=
  mergeGo_self (A.length + A.length) A (le_refl _)

theorem c5_witness :
    List.Pairwise tsLe [entA, entB] ∧
    merge_entries [entA, entB] [entA, entB] = [entA, entB] :=
  ⟨by decide, c5_merge_idempotent [entA, entB] (by decide)⟩

/-- Helper for the tie-break claim: a two-singleton merge in which the
entries are not exact duplicates and a sorts no later than b emits a
first and then b. -/
theorem mergeGo_pair (f : Nat) (a b : HistEntry)
    (hgt : strcmp a.timestamp b.timestamp ≠ Ordering.gt)
    (hne : ¬(strcmp a.timestamp b.timestamp = Ordering.eq ∧
      eq_hist_entry a b = some true)) :
    mergeGo f [a] [b] = [a, b] := by
  cases f with
  | zero => rfl
  | succ f =>
    simp only [mergeGo]
    rw [if_neg hgt, if_neg hne]
    cases f with
    | zero => rfl
    | succ f => rfl

/-- Claim C6: for singletons with equal timestamp but different body
content, the merge emits A's record first and then B's record: on a
timestamp tie without full equality the a-side is written and the
b-side is left for its own turn. -/
theorem c6_tie_prefers_first (a b : HistEntry)
    (hts : strcmp a.timestamp b.timestamp = Ordering.eq)
    (hbody : a.lines ≠ b.lines) :
    merge_entries [a] [b] = [a, b] := by
  have hne : ¬(strcmp a.timestamp b.timestamp = Ordering.eq ∧
      eq_hist_entry a b = some true) := by
    rintro ⟨_, habs⟩
    exact hbody (congrArg HistEntry.lines (eq_hist_entry_eq_of_true a b habs))
  have hgt : strcmp a.timestamp b.timestamp ≠ Ordering.gt := by
    rw [hts]; decide
  exact mergeGo_pair _ a b hgt hne

theorem c6_witness :
    (strcmp entA.timestamp entC.timestamp = Ordering.eq ∧
      entA.lines ≠ entC.lines) ∧
    merge_entries [entA] [entC] = [entA, entC] :=
  ⟨by decide, c6_tie_prefers_first entA entC (by decide) (by decide)⟩

/-- Claim C4: for sorted inputs sharing no exact cross-source
duplicate, the merge emits exactly |A| + |B| records, the output is
sorted by timestamp, and each source is a subsequence of the output
(relative order within each source is preserved exactly). -/
theorem c4_merge_no_duplicates (A B : List HistEntry)
    (hA : List.Pairwise tsLe A) (hB : List.Pairwise tsLe B)
    (hnd : ∀ a ∈ A, ∀ b ∈ B, eq_hist_entry a b ≠ some true) :
    (merge_entries A B).length = A.length + B.length ∧
    List.Pairwise tsLe (merge_entries A B) ∧
    A.Sublist (merge_entries A B) ∧ B.Sublist (merge_entries A B) := by
  unfold merge_entries
  exact ⟨mergeGo_length _ _ _ (le_refl _) hnd,
    mergeGo_sorted _ _ _ (le_refl _) hA hB,
    mergeGo_sublist_left _ _ _,
    mergeGo_sublist_right _ _ _ hnd⟩

theorem c4_witness :
    (List.Pairwise tsLe [entA] ∧ List.Pairwise tsLe [entB] ∧
      (∀ a ∈ ([entA] : List HistEntry), ∀ b ∈ ([entB] : List HistEntry),
        eq_hist_entry a b ≠ some true)) ∧
    ((merge_entries [entA] [entB]).length = 2 ∧
      List.Pairwise tsLe (merge_entries [entA] [entB]) ∧
      ([entA] : List HistEntry).Sublist (merge_entries [entA] [entB]) ∧
      ([entB] : List HistEntry).Sublist (merge_entries [entA] [entB])) := by
  refine ⟨by decide, ?_⟩
  have h := c4_merge_no_duplicates [entA] [entB] (by decide) (by decide) (by decide)
  simpa using h

/-- Claim C3, the counterexample: the claim quantifies over all A, B in
which every record of A also appears byte-identical in B at the same
timestamp, and asserts the output equals A with length |A|.  At
A = [entA], B = [entA, entB] the hypothesis holds (entA appears
byte-identical in B, both inputs sorted), yet the merge emits 2 ≠ 1
records — B's non-duplicate record is emitted too, so the output is not
A. -/
theorem c3_counterexample :
    (List.Pairwise tsLe [entA] ∧ List.Pairwise tsLe [entA, entB] ∧
      (∀ a ∈ ([entA] : List HistEntry), ∃ b ∈ ([entA, entB] : List HistEntry),
        strcmp a.timestamp b.timestamp = Ordering.eq ∧
        eq_hist_entry a b = some true)) ∧
    ¬((merge_entries [entA] [entA, entB]).length =
        ([entA] : List HistEntry).length ∧
      merge_entries [entA] [entA, entB] = [entA]) := by decide

/-- Claim C3, amended: the containment must run the other way.  For all
sorted A and B such that B is a subsequence of A (every record of B
appears byte-identical in A, in A's order), merge(A,B) emits exactly
|A| records equal to A's content and order exactly — every B record is
absorbed as a duplicate. -/
theorem c3_amended_sublist_merge (A B : List HistEntry)
    (hA : List.Pairwise tsLe A) (hsub : B.Sublist A) :
    merge_entries A B = A ∧ (merge_entries A B).length = A.length := by
  have h := mergeGo_absorb (A.length + B.length) A B (le_refl _) hA hsub
  exact ⟨h, by rw [show merge_entries A B = mergeGo (A.length + B.length) A B
    from rfl, h]⟩

theorem c3_amended_witness :
    (List.Pairwise tsLe [entA, entB] ∧
      ([entB] : List HistEntry).Sublist [entA, entB]) ∧
    (merge_entries [entA, entB] [entB] = [entA, entB] ∧
      (merge_entries [entA, entB] [entB]).length = 2) := by
  refine ⟨by decide, ?_⟩
  have h := c3_amended_sublist_merge [entA, entB] [entB] (by decide) (by decide)
  simpa using h

/-- Claim C7: the sort applied by the Log Loader — the bubble sort with
the timestamp comparator — produces a sequence sorted by lexical
timestamp order and is stable: for every timestamp value, the records
carrying that timestamp appear in the output exactly as in the input
(same records, same relative order), and the output is a permutation of
the input. -/
theorem c7_bubble_sort_sorted_stable (l : List HistEntry) :
    List.Pairwise tsLe (bubble_sort cmp_hist_entry_timestamp l) ∧
    (∀ t : List Char,
      (bubble_sort cmp_hist_entry_timestamp l).filter
          (fun e => decide (e.timestamp = t)) =
        l.filter (fun e => decide (e.timestamp = t))) ∧
    (bubble_sort cmp_hist_entry_timestamp l).Perm l := by
  refine ⟨?_, ?_, ?_⟩
  · exact bubble_sort_sorted _ tsCmp_refl tsCmp_asymm tsCmp_trans l
  · intro t
    apply bubble_sort_filter
    intro x y hgt hxy
    obtain ⟨hx, hy⟩ := hxy
    have hx' : x.timestamp = t := of_decide_eq_true hx
    have hy' : y.timestamp = t := of_decide_eq_true hy
    have hgt' : strcmp x.timestamp y.timestamp = Ordering.gt := hgt
    rw [hx', hy', strcmp_self] at hgt'
    exact absurd hgt' (by decide)
  · exact bubble_sort_perm _ l

/-- Claim C1, the counterexample: `cexStream` holds one well-formed
record followed by a truncated record — a record-level parse failure
strictly before end-of-stream (the tail still yields a full 2-character
kind, so the loop did not stop at a clean end of stream).  The claim
asserts `read_hist` then returns an error and no partial snapshot; the
code instead returns the one successfully parsed record as a successful
snapshot, indistinguishable from success on a clean one-record file. -/
theorem c1_partial_snapshot_counterexample :
    read_entry cexStream = some (entA, truncStream) ∧
    (fgetsAux 2 truncStream).1.length = 2 ∧
    read_entry truncStream = none ∧
    read_hist cexStream = some [entA] := by decide

/-- Claim C1, amended: whenever at least one record parses, `read_hist`
returns a successful snapshot holding exactly the records parsed before
the first parse failure or end of stream, sorted — a record-level parse
failure does not abort the load and surfaces no error; `read_hist`
signals failure (NULL) only when no record at all was parsed. -/
theorem c1_amended_partial_prefix_returned (s : List Char) (e : HistEntry)
    (r : List Char) (h : read_entry s = some (e, r)) :
    read_hist s = some (bubble_sort cmp_hist_entry_timestamp (e :: readAll r)) := by
  simp only [read_hist]
  rw [readAll_cons s e r h]
  rw [if_neg (by simp)]

theorem c1_amended_witness :
    read_entry goodStream = some (entA, []) ∧
    read_hist goodStream =
      some (bubble_sort cmp_hist_entry_timestamp (entA :: readAll [])) :=
  ⟨by decide, c1_amended_partial_prefix_returned goodStream entA [] (by decide)⟩

/-- Claim C2: the claim asserts reconcile(dirA, dirB, outDir) copies
every file present only in dirB into the output via the second pass.
The code's second pass iterates dir1's own listing and copies dir2's
file only when `access(dir1/name, F_OK)` fails — but every name it
visits comes from dir1's listing, so the condition never holds and
dirB-only files are never copied.  On the spec's own directory
scenario the run succeeds (status 1) and writes a.log (copied) and
shared.log (merged), but no b.log. -/
theorem c2_second_pass_never_copies :
    (merge_dirs dirA dirB).2 = true ∧
    (merge_dirs dirA dirB).1.map Prod.fst = ["a.log".data, "shared.log".data] ∧
    ¬ ("b.log".data ∈ (merge_dirs dirA dirB).1.map Prod.fst) ∧
    (merge_dirs dirA dirB).1 =
      [("a.log".data, logA), ("shared.log".data, logS1 ++ logS2)] := by decide
